import Mathlib

/-!
Shallow embedding of `imdb_plex_sync.py` (josh/imdb-plex-sync) and proofs about
its resolver, watchlist pagination, page decoding and reconciliation logic.

The program is a one-shot synchroniser: it reads an IMDb watchlist export,
resolves each IMDb identifier to a Plex rating key through a polars left join
against a precomputed parquet index, reads the current Plex watchlist through a
paginated HTTP API, and issues add/remove calls for the set differences.

Network I/O is modelled by its observable data: the parquet index is a list of
`(imdb_numeric_id, hex rating key)` rows, the remote watchlist is a list of
keys that the paginated endpoint serves in slices, and the JSON page payload is
a structure mirroring the fields the code touches.  Log output is modelled
structurally (which log calls fire, with which arguments).
-/

/-! ## Identifier resolver (`_imdb_to_plex_rating_keys`, lines 31-52) -/

/-- Models polars `str.replace("tt", "")` on one cell: remove the first
occurrence of the substring `"tt"`, leaving the rest of the string intact. -/
def stripFirstTT : List Char → List Char
  | [] => []
  | [c] => [c]
  | c1 :: c2 :: rest =>
    if c1 = 't' ∧ c2 = 't' then rest else c1 :: stripFirstTT (c2 :: rest)

/-- Accumulate the value of a decimal digit string; fails on any non-digit. -/
def decimalDigitsVal (acc : Nat) : List Char → Option Nat
  | [] => some acc
  | c :: rest =>
    if c.isDigit then decimalDigitsVal (10 * acc + (c.toNat - '0'.toNat)) rest
    else none

/-- Models polars `.cast(pl.Int64)` on one string cell: an optional leading
minus sign followed by at least one decimal digit, within the Int64 range;
anything else makes the strict cast raise, which we model as `none`. -/
def castInt64 : List Char → Option Int
  | [] => none
  | ['-'] => none
  | '-' :: rest =>
    (decimalDigitsVal 0 rest).bind fun n =>
      if n ≤ 2 ^ 63 then some (-(n : Int)) else none
  | cs =>
    (decimalDigitsVal 0 cs).bind fun n =>
      if n < 2 ^ 63 then some ((n : Int)) else none

/-- The `imdb_numeric_id` expression of `df1`:
`pl.col("imdb_id").str.replace("tt", "").cast(pl.Int64)` applied to one cell. -/
def parseIMDbNumericId (s : String) : Option Int :=
  castInt64 (stripFirstTT s.data)

/-- The whole `imdb_numeric_id` column of `df1`.  The cast is strict, so one
bad cell makes `collect()` raise, modelled as `none` for the whole column. -/
def parseAllIds : List String → Option (List Int)
  | [] => some []
  | s :: rest =>
    match parseIMDbNumericId s, parseAllIds rest with
    | some n, some ns => some (n :: ns)
    | _, _ => none

/-- `df3 = df1.join(df2, on="imdb_numeric_id", how="left").select("rating_key")
.filter(is_not_null)`: a polars left join emits, for each left row in order,
one output row per matching index row (in index order); left rows with no
match produce a null `rating_key`, which the filter then drops. -/
def joinRatingKeys (index : List (Int × String)) : List Int → List String
  | [] => []
  | n :: rest =>
    (index.filter (fun p => p.1 == n)).map Prod.snd ++ joinRatingKeys index rest

/-- Observable outcome of `_imdb_to_plex_rating_keys`: the returned rating
keys plus the structured log calls it makes (`warnings` holds the arguments of
the `logger.warning("Found %i/%i IMDb IDs", ...)` call, `infos` the argument
of the `logger.info("Found all %i IMDB IDs", ...)` call). -/
structure ResolveResult where
  rating_keys : List String
  warnings : List (Nat × Nat)
  infos : List Nat
deriving DecidableEq

/-- `_imdb_to_plex_rating_keys(imdb_ids)`, with the remote parquet index
abstracted as the list of its `(imdb_numeric_id, hex-encoded key)` rows.
`none` models the polars strict-cast exception escaping the function. -/
def _imdb_to_plex_rating_keys (index : List (Int × String))
    (imdb_ids : List String) : Option ResolveResult :=
  match parseAllIds imdb_ids with
  | none => none
  | some nums =>
    let keys := joinRatingKeys index nums
    some
      { rating_keys := keys
        warnings :=
          if keys.length < imdb_ids.length then [(keys.length, imdb_ids.length)]
          else []
        infos :=
          if keys.length < imdb_ids.length then [] else [imdb_ids.length] }

/-! ## Paginated watchlist read (`_plex_watchlist`, lines 55-65) -/

/-- The slice of the remote watchlist that one `_plex_watchlist_page` call
returns, given the container-start `offset` and container-size `size` request
headers; the function body asserts `size <= 100` before issuing the request,
and a failed assertion aborts the run (`none`). -/
def _plex_watchlist_page_model (wl : List α) (offset size : Nat) :
    Option (List α) :=
  if size ≤ 100 then some ((wl.drop offset).take size) else none

/-- The `while True` page loop of `_plex_watchlist`, unrolled on a fuel bound
(the loop itself has no iteration cap; `_plex_watchlist` supplies fuel that is
proved sufficient, see `_plex_watchlist_go_closed_form`).  Returns the
accumulated keys together with the request trace: one
`(offset, requested size, items returned)` triple per page request. -/
def _plex_watchlist_go (wl : List α) : Nat → Nat → Option (List α × List (Nat × Nat × Nat))
  | 0, _ => none
  | fuel + 1, offset =>
    match _plex_watchlist_page_model wl offset 50 with
    | none => none
    | some page =>
      if page.length < 50 then some (page, [(offset, 50, page.length)])
      else
        match _plex_watchlist_go wl fuel (offset + 50) with
        | none => none
        | some (restKeys, restReqs) =>
          some (page ++ restKeys, (offset, 50, page.length) :: restReqs)

/-- `_plex_watchlist(token)`: all keys accumulated by the page loop, starting
at offset 0 with page size 50. -/
def _plex_watchlist (wl : List α) : Option (List α) :=
  (_plex_watchlist_go wl (wl.length + 1) 0).map Prod.fst

/-- The trace of page requests issued by `_plex_watchlist(token)`. -/
def _plex_watchlist_requests (wl : List α) : Option (List (Nat × Nat × Nat)) :=
  (_plex_watchlist_go wl (wl.length + 1) 0).map Prod.snd

/-- Closed form of the request trace: `(len - offset) / 50` full pages of 50
items at offsets advancing by 50, then one final short page of
`(len - offset) % 50` items. -/
def expectedRequests (len offset : Nat) : List (Nat × Nat × Nat) :=
  (List.range ((len - offset) / 50)).map (fun i => (offset + 50 * i, 50, 50)) ++
    [(offset + 50 * ((len - offset) / 50), 50, (len - offset) % 50)]

/-! ## Page payload decoding (`_plex_watchlist_page`, lines 80-85) -/

/-- One element of the `"Metadata"` array of a watchlist page response; the
code only reads its optional `"ratingKey"` field. -/
structure MetadataEntry where
  ratingKey : Option String
deriving DecidableEq

/-- The `"MediaContainer"` object of a page response; `metadata` is `none`
when the `"Metadata"` key is absent (the code uses `.get("Metadata", [])`). -/
structure MediaContainer where
  metadata : Option (List MetadataEntry)
deriving DecidableEq

/-- A decoded watchlist page response; the `"MediaContainer"` key is accessed
unconditionally by the code, so it is a required field here. -/
structure PageResponse where
  mediaContainer : MediaContainer
deriving DecidableEq

/-- The key-extraction loop of `_plex_watchlist_page`: iterate over
`data["MediaContainer"].get("Metadata", [])` and append `metadata["ratingKey"]`
whenever that field is present. -/
def _plex_watchlist_page (resp : PageResponse) : List String :=
  (resp.mediaContainer.metadata.getD []).foldl
    (fun keys m =>
      match m.ratingKey with
      | some k => keys ++ [k]
      | none => keys)
    []

/-! ## Reconciliation (`main`, lines 147-163) -/

/-- One Plex watchlist mutation: `_plex_watchlist_add` or
`_plex_watchlist_remove` on a rating key. -/
inductive PlexAction where
  | add : String → PlexAction
  | remove : String → PlexAction
deriving DecidableEq

/-- The rating key an action operates on. -/
def PlexAction.key : PlexAction → String
  | .add k => k
  | .remove k => k

/-- Observable outcome of the two reconciliation loops of `main`:
`mutationCalls` is the sequence of HTTP mutations issued, `plannedLogs` the
sequence of per-key `logger.info` calls, each tagged with whether it was the
`"[DRY RUN] "`-prefixed variant, together with the action it announces. -/
structure MainRun where
  mutationCalls : List PlexAction
  plannedLogs : List (Bool × PlexAction)
deriving DecidableEq

/-- The two loops of `main` over `imdb_keys - plex_keys` and
`plex_keys - imdb_keys`, taking the two already-deduplicated key sets
(modelled as duplicate-free lists).  Per key the code logs the planned action
and, unless `--dry-run` is set, issues the mutation call. -/
def mainReconcile (imdbKeys plexKeys : List String) (dryRun : Bool) : MainRun :=
  let toAdd := imdbKeys.filter (fun k => !plexKeys.contains k)
  let toRemove := plexKeys.filter (fun k => !imdbKeys.contains k)
  { mutationCalls :=
      if dryRun then []
      else toAdd.map PlexAction.add ++ toRemove.map PlexAction.remove
    plannedLogs :=
      toAdd.map (fun k => (dryRun, PlexAction.add k)) ++
        toRemove.map (fun k => (dryRun, PlexAction.remove k)) }

/-- The reconciliation phase of `main` on raw inputs:
`imdb_keys = set(_imdb_to_plex_rating_keys(imdb_ids))` and
`plex_keys = set(_plex_watchlist(...))` collapse the two lists to sets
(modelled by `List.dedup`) before the two loops run. -/
def mainRun (resolvedKeys watchlistKeys : List String) (dryRun : Bool) : MainRun :=
  mainReconcile resolvedKeys.dedup watchlistKeys.dedup dryRun

/-! ## Mutation-call execution against a fallible transport (`main` loop body,
`_plex_watchlist_add` / `_plex_watchlist_remove`, lines 88-113) -/

/-- Effect of one successful mutation call on the (set-like) server-side
watchlist state. -/
def applyAction (state : List String) : PlexAction → List String
  | .add k => if k ∈ state then state else state ++ [k]
  | .remove k => state.filter (fun x => x != k)

/-- Run the mutation calls in order against a transport where `failing a`
says whether the HTTP call for `a` raises.  The Python loop body has no
handler, so the first raising call ends the run: it is the last call issued
and no further call executes.  Returns the calls actually issued and the
final server-side state. -/
def execCalls (failing : PlexAction → Bool) (state : List String) :
    List PlexAction → List PlexAction × List String
  | [] => ([], state)
  | a :: rest =>
    if failing a then ([a], state)
    else
      match execCalls failing (applyAction state a) rest with
      | (performed, final) => (a :: performed, final)

/-! ## Lemmas about the resolver -/

theorem parseAllIds_length {ids : List String} {nums : List Int}
    (h : parseAllIds ids = some nums) : nums.length = ids.length := by
  induction ids generalizing nums with
  | nil =>
    simp only [parseAllIds, Option.some.injEq] at h
    subst h
    rfl
  | cons s rest ih =>
    simp only [parseAllIds] at h
    cases hp : parseIMDbNumericId s with
    | none => rw [hp] at h; cases h
    | some n =>
      cases hr : parseAllIds rest with
      | none => rw [hp, hr] at h; cases h
      | some ns =>
        rw [hp, hr] at h
        injection h with h
        subst h
        simp [ih hr]

theorem filter_fst_eq_of_nodup {index : List (Int × String)} {n : Int}
    (h : (index.map Prod.fst).Nodup) :
    (index.filter (fun p => p.1 == n)).map Prod.snd =
      ((index.find? (fun p => p.1 == n)).map Prod.snd).toList := by
  induction index with
  | nil => simp
  | cons a rest ih =>
    simp only [List.map_cons, List.nodup_cons] at h
    by_cases ha : a.1 = n
    · have hrest : rest.filter (fun p => p.1 == n) = [] := by
        refine List.filter_eq_nil_iff.mpr fun p hp => ?_
        simp only [beq_iff_eq]
        intro hpn
        exact h.1 (by rw [ha, ← hpn]; exact List.mem_map_of_mem Prod.fst hp)
      simp [List.filter_cons, List.find?_cons, beq_iff_eq, ha, hrest]
    · simp only [List.filter_cons, List.find?_cons]
      rw [if_neg (by simp [ha]), ih h.2]
      have : (a.1 == n) = false := by simp [ha]
      simp [this]

theorem joinRatingKeys_eq_filterMap {index : List (Int × String)}
    (h : (index.map Prod.fst).Nodup) (nums : List Int) :
    joinRatingKeys index nums =
      nums.filterMap (fun n => (index.find? (fun p => p.1 == n)).map Prod.snd) := by
  induction nums with
  | nil => simp [joinRatingKeys]
  | cons n rest ih =>
    rw [joinRatingKeys, filter_fst_eq_of_nodup h, ih]
    cases hf : index.find? (fun p => p.1 == n) <;> simp [List.filterMap_cons, hf]

theorem joinRatingKeys_length_of_nodup {index : List (Int × String)}
    (h : (index.map Prod.fst).Nodup) (nums : List Int) :
    (joinRatingKeys index nums).length =
      nums.countP (fun n => (index.find? (fun p => p.1 == n)).isSome) := by
  induction nums with
  | nil => simp [joinRatingKeys]
  | cons n rest ih =>
    rw [joinRatingKeys, List.length_append, ih, List.countP_cons,
      filter_fst_eq_of_nodup h]
    cases hf : index.find? (fun p => p.1 == n) <;> simp [hf] <;> omega

/-- C1 counterexample: with two index rows for the same identifier, resolving
the single identifier "tt1" returns two rating keys (more than the one input
identifier, and two keys for that identifier, both pairs kept), and the
duplicate triggers no warning (the function even logs "Found all 1"). -/
theorem c1_counterexample :
    _imdb_to_plex_rating_keys [((1 : Int), "a"), (1, "b")] ["tt1"] =
      some ⟨["a", "b"], [], [1]⟩ ∧
    ¬((["a", "b"] : List String).length ≤ (["tt1"] : List String).length) := by
  decide

/-- C1 (amended): when the backing index maps each numeric identifier to at
most one row, the resolver returns at most as many rating keys as input
identifiers, and the output is exactly the per-identifier unique match
(at most one rating key per identifier).  With duplicate index rows the code
instead keeps every matching pair, without any warning. -/
theorem c1_amended_resolver_bound :
    ∀ (index : List (Int × String)) (ids : List String) (nums : List Int)
      (r : ResolveResult),
      parseAllIds ids = some nums →
      _imdb_to_plex_rating_keys index ids = some r →
      (index.map Prod.fst).Nodup →
      r.rating_keys.length ≤ ids.length ∧
      r.rating_keys =
        nums.filterMap (fun n => (index.find? (fun p => p.1 == n)).map Prod.snd) := by
  intro index ids nums r hp hr hn
  simp only [_imdb_to_plex_rating_keys] at hr
  rw [hp] at hr
  injection hr with hr
  subst hr
  refine ⟨?_, joinRatingKeys_eq_filterMap hn nums⟩
  calc (joinRatingKeys index nums).length
      = (nums.filterMap
          (fun n => (index.find? (fun p => p.1 == n)).map Prod.snd)).length := by
        rw [joinRatingKeys_eq_filterMap hn nums]
    _ ≤ nums.length := List.length_filterMap_le _ _
    _ = ids.length := parseAllIds_length hp

/-- Witness for the amended C1 at a duplicate-free index. -/
theorem c1_witness :
    (⟨["a"], [(1, 2)], []⟩ : ResolveResult).rating_keys.length ≤
        (["tt1", "tt3"] : List String).length ∧
      (⟨["a"], [(1, 2)], []⟩ : ResolveResult).rating_keys =
        [(1 : Int), 3].filterMap
          (fun n =>
            (([((1 : Int), "a"), (2, "b")]).find? (fun p => p.1 == n)).map Prod.snd) :=
  c1_amended_resolver_bound [((1 : Int), "a"), (2, "b")] ["tt1", "tt3"]
    [(1 : Int), 3] ⟨["a"], [(1, 2)], []⟩ (by decide) (by decide) (by decide)

/-- C8: resolving the empty identifier list yields no rating keys and no
warning log call (only the "Found all 0 IMDB IDs" info line). -/
theorem c8_empty_resolve :
    ∀ index : List (Int × String),
      _imdb_to_plex_rating_keys index [] = some ⟨[], [], [0]⟩ :=
  fun _ => rfl

/-- C5 counterexample: the warning is keyed on the number of returned rows,
not on the number of resolved identifiers.  Here "tt2" parses to 2, no index
row carries identifier 2 (so only one of the two requested identifiers is
resolved), yet duplicate rows for identifier 1 pad the output to two keys and
the function emits no warning, logging "Found all 2" instead. -/
theorem c5_counterexample :
    _imdb_to_plex_rating_keys [((1 : Int), "a"), (1, "b")] ["tt1", "tt2"] =
      some ⟨["a", "b"], [], [2]⟩ ∧
    parseIMDbNumericId "tt2" = some 2 ∧
    (∀ p ∈ [((1 : Int), "a"), (1, "b")], p.1 ≠ 2) := by
  decide

/-- C5 (amended): a resolver run whose identifiers all parse never fails
(partial resolution is not fatal); and when the backing index maps each
numeric identifier to at most one row, the warning is emitted exactly when
some requested identifier has no index row, and it reports the
resolved/requested counts.  When every identifier is resolved, no warning is
emitted.  (Without the duplicate-free hypothesis, duplicate index rows can
mask unresolved identifiers, see the counterexample.) -/
theorem c5_amended_partial_warning :
    (∀ (index : List (Int × String)) (ids : List String) (nums : List Int),
        parseAllIds ids = some nums →
        (_imdb_to_plex_rating_keys index ids).isSome = true) ∧
      (∀ (index : List (Int × String)) (ids : List String) (nums : List Int)
          (r : ResolveResult),
          parseAllIds ids = some nums →
          _imdb_to_plex_rating_keys index ids = some r →
          (index.map Prod.fst).Nodup →
          (r.warnings ≠ [] ↔ ∃ n ∈ nums, ∀ p ∈ index, p.1 ≠ n) ∧
            (r.warnings ≠ [] → r.warnings = [(r.rating_keys.length, ids.length)]) ∧
            ((∀ n ∈ nums, ∃ p ∈ index, p.1 = n) → r.warnings = [])) := by
  constructor
  · intro index ids nums hp
    simp only [_imdb_to_plex_rating_keys]
    rw [hp]
    rfl
  · intro index ids nums r hp hr hn
    simp only [_imdb_to_plex_rating_keys] at hr
    rw [hp] at hr
    injection hr with hr
    subst hr
    have hlen := joinRatingKeys_length_of_nodup hn nums
    have hnumslen := parseAllIds_length hp
    have hlt :
        (joinRatingKeys index nums).length < ids.length ↔
          ∃ n ∈ nums, ∀ p ∈ index, p.1 ≠ n := by
      rw [hlen, ← hnumslen]
      constructor
      · intro hcount
        by_contra hno
        push_neg at hno
        have hall : ∀ n ∈ nums,
            ((index.find? (fun p => p.1 == n)).isSome) = true := by
          intro n hn'
          obtain ⟨p, hp', hpn⟩ := hno n hn'
          exact List.find?_isSome.mpr ⟨p, hp', by simp [hpn]⟩
        rw [List.countP_eq_length.mpr hall] at hcount
        omega
      · rintro ⟨n, hn', hnone⟩
        have hle := List.countP_le_length
          (fun n => (index.find? (fun p => p.1 == n)).isSome) (l := nums)
        have hne : nums.countP
            (fun n => (index.find? (fun p => p.1 == n)).isSome) ≠ nums.length := by
          intro heq
          have := List.countP_eq_length.mp heq n hn'
          obtain ⟨p, hp', hpn⟩ := List.find?_isSome.mp this
          exact hnone p hp' (by simpa using hpn)
        omega
    dsimp only
    by_cases hc : (joinRatingKeys index nums).length < ids.length
    · simp only [if_pos hc]
      refine ⟨?_, fun _ => trivial, ?_⟩
      · simp only [ne_eq, List.cons_ne_nil, not_false_eq_true, true_iff]
        exact hlt.mp hc
      · intro hres
        exfalso
        obtain ⟨n, hn', hnone⟩ := hlt.mp hc
        obtain ⟨p, hp', hpn⟩ := hres n hn'
        exact hnone p hp' hpn
    · simp only [if_neg hc]
      refine ⟨?_, fun h => absurd rfl h, fun _ => trivial⟩
      constructor
      · intro h
        exact absurd rfl h
      · intro hex
        exact absurd (hlt.mpr hex) hc

/-- Witness for the amended C5: one of two identifiers unresolved under a
duplicate-free index produces the (1, 2) warning, and the run still returns. -/
theorem c5_witness :
    (_imdb_to_plex_rating_keys [((1 : Int), "a")] ["tt1", "tt2"]).isSome = true ∧
      (⟨["a"], [(1, 2)], []⟩ : ResolveResult).warnings = [(1, 2)] := by
  constructor
  · exact c5_amended_partial_warning.1 [((1 : Int), "a")] ["tt1", "tt2"]
      [(1 : Int), 2] (by decide)
  · exact (c5_amended_partial_warning.2 [((1 : Int), "a")] ["tt1", "tt2"]
      [(1 : Int), 2] ⟨["a"], [(1, 2)], []⟩ (by decide) (by decide)
      (by decide)).2.1 (by decide)

/-! ## Lemmas about the reconciliation loops -/

theorem add_mem_mainRun_calls {ro wl : List String} {k : String} :
    PlexAction.add k ∈ (mainRun ro wl false).mutationCalls ↔ k ∈ ro ∧ k ∉ wl := by
  simp [mainRun, mainReconcile, List.mem_filter, List.mem_dedup]

theorem remove_mem_mainRun_calls {ro wl : List String} {k : String} :
    PlexAction.remove k ∈ (mainRun ro wl false).mutationCalls ↔ k ∈ wl ∧ k ∉ ro := by
  simp [mainRun, mainReconcile, List.mem_filter, List.mem_dedup]

theorem mainRun_calls_keys_nodup (ro wl : List String) :
    ((mainRun ro wl false).mutationCalls.map PlexAction.key).Nodup := by
  have hmap : (mainRun ro wl false).mutationCalls.map PlexAction.key =
      ro.dedup.filter (fun x => !wl.dedup.contains x) ++
        wl.dedup.filter (fun x => !ro.dedup.contains x) := by
    simp [mainRun, mainReconcile, List.map_map, Function.comp_def, PlexAction.key]
  rw [hmap]
  refine List.nodup_append.mpr ⟨ro.nodup_dedup.filter _, wl.nodup_dedup.filter _, ?_⟩
  intro x hx hy
  have hx' := List.mem_filter.mp hx
  have hy' := List.mem_filter.mp hy
  simp at hx' hy'
  exact hx'.2 hy'.1

/-- C2: the reconciler issues add calls exactly for keys resolved from IMDb
but absent from the Plex watchlist, remove calls exactly for keys on the Plex
watchlist but not resolved from IMDb, never both for one key; on the disjoint
sets {A, B} and {C, D} it performs exactly add A, add B, remove C, remove D. -/
theorem c2_reconcile_diff :
    ∀ (ro wl : List String) (k : String),
      (PlexAction.add k ∈ (mainRun ro wl false).mutationCalls ↔ k ∈ ro ∧ k ∉ wl) ∧
      (PlexAction.remove k ∈ (mainRun ro wl false).mutationCalls ↔ k ∈ wl ∧ k ∉ ro) ∧
      ¬(PlexAction.add k ∈ (mainRun ro wl false).mutationCalls ∧
          PlexAction.remove k ∈ (mainRun ro wl false).mutationCalls) ∧
      (mainRun ["A", "B"] ["C", "D"] false).mutationCalls =
        [PlexAction.add "A", PlexAction.add "B",
          PlexAction.remove "C", PlexAction.remove "D"] := by
  intro ro wl k
  refine ⟨add_mem_mainRun_calls, remove_mem_mainRun_calls, ?_, by decide⟩
  rintro ⟨ha, hb⟩
  exact (add_mem_mainRun_calls.mp ha).2 (remove_mem_mainRun_calls.mp hb).1

/-- C4: with the dry-run flag no mutation call is issued, while the sequence
of planned actions logged is the same one a non-dry-run execution over the
same inputs would log (the log lines differ only by the dry-run prefix tag). -/
theorem c4_dry_run_no_mutations :
    ∀ ro wl : List String,
      (mainRun ro wl true).mutationCalls = [] ∧
      (mainRun ro wl true).plannedLogs.map Prod.snd =
        (mainRun ro wl false).plannedLogs.map Prod.snd := by
  intro ro wl
  constructor
  · simp [mainRun, mainReconcile]
  · simp [mainRun, mainReconcile, List.map_map, Function.comp_def]

/-- C7: when the resolved key set and the current watchlist set coincide,
the reconciler issues no mutation calls (and logs no planned action). -/
theorem c7_identical_sets_no_actions :
    ∀ (ro wl : List String) (dryRun : Bool),
      (∀ k, k ∈ ro ↔ k ∈ wl) →
      (mainRun ro wl dryRun).mutationCalls = [] ∧
        (mainRun ro wl dryRun).plannedLogs = [] := by
  intro ro wl d h
  constructor
  · cases d with
    | false =>
      simp [mainRun, mainReconcile]
      exact ⟨fun a ha => (h a).mp ha, fun a ha => (h a).mpr ha⟩
    | true => simp [mainRun, mainReconcile]
  · simp [mainRun, mainReconcile]
    exact ⟨fun a ha => (h a).mp ha, fun a ha => (h a).mpr ha⟩

/-- Witness for C7 on the concrete identical sets {X} and {X}. -/
theorem c7_witness :
    (mainRun ["X"] ["X"] false).mutationCalls = [] ∧
      (mainRun ["X"] ["X"] false).plannedLogs = [] :=
  c7_identical_sets_no_actions ["X"] ["X"] false (fun _ => Iff.rfl)

/-- C10: per distinct rating key the run issues at most one add call and at
most one remove call, and never both, for all raw (possibly duplicated)
resolver and watchlist outputs, because both lists are collapsed to sets
before the diff. -/
theorem c10_calls_once_per_key :
    ∀ (ro wl : List String) (k : String),
      (mainRun ro wl false).mutationCalls.count (PlexAction.add k) ≤ 1 ∧
      (mainRun ro wl false).mutationCalls.count (PlexAction.remove k) ≤ 1 ∧
      ¬(PlexAction.add k ∈ (mainRun ro wl false).mutationCalls ∧
          PlexAction.remove k ∈ (mainRun ro wl false).mutationCalls) := by
  intro ro wl k
  have hnd : (mainRun ro wl false).mutationCalls.Nodup :=
    (mainRun_calls_keys_nodup ro wl).of_map
  refine ⟨List.nodup_iff_count_le_one.mp hnd _,
    List.nodup_iff_count_le_one.mp hnd _, ?_⟩
  rintro ⟨ha, hb⟩
  exact (add_mem_mainRun_calls.mp ha).2 (remove_mem_mainRun_calls.mp hb).1

/-! ## Lemmas about the paginated watchlist read -/

theorem expectedRequests_step {L offset : Nat} (h50 : 50 ≤ L - offset) :
    expectedRequests L offset =
      (offset, 50, 50) :: expectedRequests L (offset + 50) := by
  have hsub : L - (offset + 50) = L - offset - 50 := by omega
  have hdiv : (L - offset) / 50 = (L - (offset + 50)) / 50 + 1 := by
    rw [Nat.div_eq_sub_div (by norm_num) h50, hsub]
  have hmod : (L - offset) % 50 = (L - (offset + 50)) % 50 := by
    rw [Nat.mod_eq_sub_mod h50, hsub]
  rw [expectedRequests, expectedRequests, hdiv, hmod, List.range_succ_eq_map]
  simp only [List.map_cons, List.map_map, Nat.mul_zero, Nat.add_zero,
    List.cons_append]
  congr 1
  congr 1
  · refine List.map_congr_left fun i _ => ?_
    simp only [Function.comp_def, Prod.mk.injEq, and_true]
    omega
  · simp only [List.cons.injEq, Prod.mk.injEq, and_true, true_and]
    omega

theorem _plex_watchlist_go_closed_form :
    ∀ (fuel : Nat) (wl : List α) (offset : Nat),
      (wl.length - offset) / 50 < fuel →
      ∃ keys, _plex_watchlist_go wl fuel offset =
        some (keys, expectedRequests wl.length offset) := by
  intro fuel
  induction fuel with
  | zero => intro wl offset h; omega
  | succ fuel ih =>
    intro wl offset h
    have hpage : _plex_watchlist_page_model wl offset 50 =
        some ((wl.drop offset).take 50) := by
      simp [_plex_watchlist_page_model]
    by_cases hm : wl.length - offset < 50
    · have hlen : ((wl.drop offset).take 50).length = wl.length - offset := by
        simp only [List.length_take, List.length_drop]
        omega
      refine ⟨(wl.drop offset).take 50, ?_⟩
      simp only [_plex_watchlist_go, hpage]
      rw [if_pos (by rw [hlen]; exact hm)]
      rw [hlen]
      have h0 : (wl.length - offset) / 50 = 0 := Nat.div_eq_of_lt hm
      simp [expectedRequests, h0, Nat.mod_eq_of_lt hm]
    · have h50 : 50 ≤ wl.length - offset := le_of_not_lt hm
      have hlen : ((wl.drop offset).take 50).length = 50 := by
        simp only [List.length_take, List.length_drop]
        omega
      have hih : (wl.length - (offset + 50)) / 50 < fuel := by
        have h1 : wl.length - (offset + 50) = wl.length - offset - 50 := by omega
        have hdiv : (wl.length - offset) / 50 =
            (wl.length - (offset + 50)) / 50 + 1 := by
          rw [h1, Nat.div_eq_sub_div (by norm_num) h50]
        omega
      obtain ⟨keys', hkeys'⟩ := ih wl (offset + 50) hih
      refine ⟨(wl.drop offset).take 50 ++ keys', ?_⟩
      simp only [_plex_watchlist_go, hpage]
      rw [if_neg (by rw [hlen]; omega)]
      rw [hkeys', hlen, expectedRequests_step h50]

/-- C3: the page loop of `_plex_watchlist` always requests the fixed page
size 50 (within the asserted bound of 100), advances the offset by the page
size on every iteration, sees a full page of 50 items on every request but
the last, and terminates exactly at the first short page (of `length % 50`
items); on a 120-item watchlist it issues exactly the three requests
returning 50, 50 and 20 items. -/
theorem c3_pagination :
    ∀ (wl : List α),
      _plex_watchlist_requests wl = some (expectedRequests wl.length 0) ∧
      (∀ r ∈ expectedRequests wl.length 0, r.2.1 = 50 ∧ r.2.1 ≤ 100) ∧
      (expectedRequests wl.length 0).map (fun r => r.1) =
        (List.range (expectedRequests wl.length 0).length).map (fun i => 50 * i) ∧
      (∀ r ∈ (expectedRequests wl.length 0).dropLast, r.2.2 = 50) ∧
      (expectedRequests wl.length 0).getLast? =
        some (50 * (wl.length / 50), 50, wl.length % 50) ∧
      wl.length % 50 < 50 ∧
      (wl.length = 120 →
        expectedRequests wl.length 0 = [(0, 50, 50), (50, 50, 50), (100, 50, 20)]) := by
  intro wl
  refine ⟨?_, ?_, ?_, ?_, ?_, Nat.mod_lt _ (by norm_num), ?_⟩
  · have hf : (wl.length - 0) / 50 < wl.length + 1 := by
      have := Nat.div_le_self (wl.length - 0) 50
      omega
    obtain ⟨keys, hk⟩ := _plex_watchlist_go_closed_form (wl.length + 1) wl 0 hf
    simp [_plex_watchlist_requests, hk]
  · intro r hr
    rw [expectedRequests] at hr
    rcases List.mem_append.mp hr with h | h
    · obtain ⟨i, _, rfl⟩ := List.mem_map.mp h
      exact ⟨rfl, by norm_num⟩
    · rw [List.mem_singleton] at h
      subst h
      exact ⟨rfl, by norm_num⟩
  · have hlen : (expectedRequests wl.length 0).length = wl.length / 50 + 1 := by
      simp [expectedRequests]
    rw [hlen, expectedRequests, List.range_succ, List.map_append, List.map_append,
      List.map_map]
    simp [Function.comp_def]
  · intro r hr
    rw [expectedRequests, List.dropLast_concat] at hr
    obtain ⟨i, _, rfl⟩ := List.mem_map.mp hr
    rfl
  · rw [expectedRequests, List.getLast?_concat]
    simp
  · intro h120
    rw [h120]
    decide

/-- Witness for C3 on a concrete 120-item watchlist. -/
theorem c3_witness :
    _plex_watchlist_requests (List.range 120) =
      some [(0, 50, 50), (50, 50, 50), (100, 50, 20)] := by
  have h := c3_pagination (List.range 120)
  have h120 : (List.range 120).length = 120 := by simp
  rw [h.1, h.2.2.2.2.2.2 h120]

/-! ## Lemmas about page decoding -/

theorem foldl_ratingKey_append (entries : List MetadataEntry) :
    ∀ acc : List String,
      entries.foldl
          (fun keys m =>
            match m.ratingKey with
            | some k => keys ++ [k]
            | none => keys)
          acc =
        acc ++ entries.filterMap MetadataEntry.ratingKey := by
  induction entries with
  | nil => intro acc; simp
  | cons m rest ih =>
    intro acc
    rw [List.foldl_cons]
    cases hm : m.ratingKey with
    | none => simp [hm, ih acc, List.filterMap_cons]
    | some k => simp [hm, ih (acc ++ [k]), List.filterMap_cons]

/-- C9: the page decoder returns exactly the `ratingKey` values present in
the `Metadata` array, silently skipping entries without that field; a
response without a `Metadata` array yields no keys; and decoding is total
(it is a plain function, so no such payload can fail it). -/
theorem c9_page_decoding :
    ∀ resp : PageResponse,
      _plex_watchlist_page resp =
        (resp.mediaContainer.metadata.getD []).filterMap MetadataEntry.ratingKey ∧
      (resp.mediaContainer.metadata = none → _plex_watchlist_page resp = []) ∧
      (_plex_watchlist_page resp).length ≤
        (resp.mediaContainer.metadata.getD []).length := by
  intro resp
  have h : _plex_watchlist_page resp =
      (resp.mediaContainer.metadata.getD []).filterMap MetadataEntry.ratingKey := by
    rw [_plex_watchlist_page]
    simpa using foldl_ratingKey_append (resp.mediaContainer.metadata.getD []) []
  refine ⟨h, ?_, ?_⟩
  · intro hnone
    rw [h, hnone]
    rfl
  · rw [h]
    exact List.length_filterMap_le _ _

/-- Witness for C9: a missing `Metadata` array yields no keys, and an entry
without a `ratingKey` field is skipped while the others are kept in order. -/
theorem c9_witness :
    _plex_watchlist_page ⟨⟨none⟩⟩ = [] ∧
      _plex_watchlist_page ⟨⟨some [⟨some "k1"⟩, ⟨none⟩, ⟨some "k2"⟩]⟩⟩ =
        ["k1", "k2"] :=
  ⟨(c9_page_decoding ⟨⟨none⟩⟩).2.1 rfl,
    (c9_page_decoding ⟨⟨some [⟨some "k1"⟩, ⟨none⟩, ⟨some "k2"⟩]⟩⟩).1.trans
      (by decide)⟩

/-! ## Lemmas about mutation-call execution -/

theorem applyAction_mem {a : PlexAction} {k : String} (h : a.key ≠ k)
    (s : List String) : k ∈ applyAction s a ↔ k ∈ s := by
  cases a with
  | add k' =>
    simp only [PlexAction.key] at h
    simp only [applyAction]
    split
    · exact Iff.rfl
    · rw [List.mem_append, List.mem_singleton]
      exact or_iff_left fun hk => h (hk ▸ rfl)
  | remove k' =>
    simp only [PlexAction.key] at h
    simp only [applyAction, List.mem_filter, bne_iff_ne, ne_eq]
    exact and_iff_left fun hk => h (hk ▸ rfl)

theorem execCalls_stops {failing : PlexAction → Bool} {f : PlexAction} :
    ∀ (pre : List PlexAction) (post : List PlexAction) (s : List String),
      (∀ a ∈ pre, failing a = false) → failing f = true →
      execCalls failing s (pre ++ f :: post) =
        (pre ++ [f], pre.foldl applyAction s) := by
  intro pre
  induction pre with
  | nil =>
    intro post s _ hf
    simp [execCalls, hf]
  | cons a rest ih =>
    intro post s hpre hf
    have ha : failing a = false := hpre a (by simp)
    simp only [List.cons_append, execCalls, ha, Bool.false_eq_true, if_false,
      List.append_eq]
    rw [ih post (applyAction s a) (fun b hb => hpre b (by simp [hb])) hf]
    simp

theorem foldl_applyAction_mem {k : String} :
    ∀ (acts : List PlexAction) (s : List String),
      k ∉ acts.map PlexAction.key →
      (k ∈ acts.foldl applyAction s ↔ k ∈ s) := by
  intro acts
  induction acts with
  | nil => intro s _; exact Iff.rfl
  | cons a rest ih =>
    intro s hk
    simp only [List.map_cons, List.mem_cons] at hk
    push_neg at hk
    rw [List.foldl_cons, ih _ hk.2, applyAction_mem (fun hh => hk.1 hh.symm) s]

/-- C6: in a non-dry run, if the mutation calls split as `pre ++ f :: post`
where every call in `pre` succeeds and the call `f` raises, then the calls
actually issued are exactly `pre ++ [f]` (nothing is retried, nothing after
the failure runs), every action in `post` is never issued, and the
server-side membership of every not-yet-processed key is exactly what it was
initially. -/
theorem c6_abort_on_failure :
    ∀ (ro wl : List String) (failing : PlexAction → Bool) (s0 : List String)
      (pre post : List PlexAction) (f : PlexAction),
      (mainRun ro wl false).mutationCalls = pre ++ f :: post →
      (∀ a ∈ pre, failing a = false) →
      failing f = true →
      (execCalls failing s0 ((mainRun ro wl false).mutationCalls)).1 =
          pre ++ [f] ∧
        (∀ a ∈ post,
          a ∉ (execCalls failing s0 ((mainRun ro wl false).mutationCalls)).1) ∧
        (∀ a ∈ post,
          (a.key ∈ (execCalls failing s0 ((mainRun ro wl false).mutationCalls)).2 ↔
            a.key ∈ s0)) := by
  intro ro wl failing s0 pre post f hcalls hpre hf
  have hnodup := mainRun_calls_keys_nodup ro wl
  rw [hcalls] at hnodup
  simp only [List.map_append, List.map_cons, List.nodup_append,
    List.nodup_cons] at hnodup
  rw [hcalls, execCalls_stops pre post s0 hpre hf]
  refine ⟨rfl, ?_, ?_⟩
  · intro a ha hmem
    have hakey : a.key ∈ post.map PlexAction.key := List.mem_map_of_mem _ ha
    rcases List.mem_append.mp hmem with hp | hf'
    · exact hnodup.2.2 (List.mem_map_of_mem _ hp) (List.mem_cons_of_mem _ hakey)
    · rw [List.mem_singleton] at hf'
      subst hf'
      exact hnodup.2.1.1 hakey
  · intro a ha
    refine foldl_applyAction_mem pre s0 fun hk => ?_
    exact hnodup.2.2 hk
      (List.mem_cons_of_mem _ (List.mem_map_of_mem _ ha))

/-- Witness for C6: with calls add A, add B, remove C and a transport that
fails on add B, exactly add A and add B are issued and the key C of the
unprocessed remove keeps its initial membership. -/
theorem c6_witness :
    (execCalls (fun a => decide (a = PlexAction.add "B")) ["C"]
        ((mainRun ["A", "B"] ["C"] false).mutationCalls)).1 =
      [PlexAction.add "A", PlexAction.add "B"] ∧
      ((PlexAction.remove "C").key ∈
          (execCalls (fun a => decide (a = PlexAction.add "B")) ["C"]
            ((mainRun ["A", "B"] ["C"] false).mutationCalls)).2 ↔
        (PlexAction.remove "C").key ∈ ["C"]) := by
  have h := c6_abort_on_failure ["A", "B"] ["C"]
    (fun a => decide (a = PlexAction.add "B")) ["C"]
    [PlexAction.add "A"] [PlexAction.remove "C"] (PlexAction.add "B")
    (by decide) (by decide) (by decide)
  exact ⟨h.1, h.2.2 (PlexAction.remove "C") (by decide)⟩

example : stripFirstTT "tt123".data = ['1', '2', '3'] := by decide

example : parseAllIds ["tt1", "tt3"] = some [1, 3] := by decide

example :
    _imdb_to_plex_rating_keys [((1 : Int), "a"), (1, "b")] ["tt1"] =
      some ⟨["a", "b"], [], [1]⟩ := by decide

example :
    _imdb_to_plex_rating_keys [((1 : Int), "a"), (1, "b")] ["tt1", "tt2"] =
      some ⟨["a", "b"], [], [2]⟩ := by decide

example :
    _plex_watchlist_requests (List.range 120) =
      some [(0, 50, 50), (50, 50, 50), (100, 50, 20)] := by decide

example :
    (mainRun ["A", "B"] ["C", "D"] false).mutationCalls =
      [PlexAction.add "A", PlexAction.add "B", PlexAction.remove "C", PlexAction.remove "D"] := by
  decide
